import Mathlib

/-!
Verification development for the AmongUs-Shuffler bot.

The Rust sources (`src/shuffler.rs`, `src/parser.rs`, `src/game.rs`,
`src/main.rs`) are shallowly embedded below:

* participant identifiers (`serenity::UserId`, a `u64`) and channel
  identifiers (`ChannelId`) are modelled as `Nat` (all operations on them
  are comparisons and copies, so no overflow is involved);
* the random shuffles drawn from `rand::thread_rng` are modelled by an
  explicit list `orders` of candidate orders: each recursive retry of
  `shuffle_people` consumes the next order, and running out of orders
  (`Option` result `none`) models the program still retrying;
* the `HashMap<UserId, Game>` guarded by the `RwLock` is modelled as an
  association list with unique keys; `insert` replaces the binding of an
  existing key;
* the effectful Discord calls (`create_dm_channel`, `say`) are modelled by
  boolean oracles telling whether the call succeeds, and the messages the
  handler sends are collected in result lists.
-/

namespace AmongUsShuffler

abbrev UserId := Nat
abbrev ChannelId := Nat

/-- `type Players = Vec<UserId>` from `game.rs`. -/
abbrev Players := List UserId

/-- `type Pairs = Vec<(UserId, UserId)>` from `game.rs`. -/
abbrev Pairs := List (UserId × UserId)

instance {ε α : Type} [DecidableEq ε] [DecidableEq α] : DecidableEq (Except ε α)
  | .ok a, .ok b =>
    if h : a = b then isTrue (by rw [h]) else isFalse (fun hh => h (Except.ok.inj hh))
  | .error a, .error b =>
    if h : a = b then isTrue (by rw [h]) else isFalse (fun hh => h (Except.error.inj hh))
  | .ok _, .error _ => isFalse (fun hh => Except.noConfusion hh)
  | .error _, .ok _ => isFalse (fun hh => Except.noConfusion hh)

/-! ## Shuffle engine (`src/shuffler.rs`) -/

/-- `enum ShuffleError` from `shuffler.rs`. -/
inductive ShuffleError
  | TooFewPeople
  | DuplicatesDetected
  | TooManyExclusions
deriving DecidableEq

/-- Helper for `Vec::dedup`: walks the tail, dropping every element equal to
the previous kept element (`prev`). -/
def dedupAdjacent (prev : UserId) : List UserId → List UserId
  | [] => []
  | b :: rest => if prev = b then dedupAdjacent prev rest else b :: dedupAdjacent b rest

/-- `Vec::dedup` (`players.dedup()` in `shuffler.rs`): removes consecutive
repeated elements, keeping the first element of each run. -/
def rustDedup : List UserId → List UserId
  | [] => []
  | a :: rest => a :: dedupAdjacent a rest

/-- `players.sort()` from `shuffler.rs`. -/
def sortPlayers (l : Players) : Players := List.insertionSort (· ≤ ·) l

/-- The pair-forming loop of `shuffle_people`: after `players.push(players[0])`
the loop pairs each element with its successor, i.e. on a non-empty order
`x :: xs` it produces `zip (x :: xs) (xs ++ [x])`. -/
def cyclePairs : List UserId → Pairs
  | [] => []
  | x :: xs => List.zip (x :: xs) (xs ++ [x])

/-- One attempt of the loop body of `shuffle_people`: form the cycle pairs for
the shuffled `order`; if any pair is contained in `avoid`, the whole attempt is
discarded (the code recurses for a fresh shuffle), otherwise the pairs are the
result. -/
def tryShuffle (order : List UserId) (avoid : Pairs) : Option Pairs :=
  if (cyclePairs order).any (fun t => avoid.contains t) then none
  else some (cyclePairs order)

/-- The retry recursion of `shuffle_people`, with the randomness of
`players.shuffle(&mut rng)` made explicit: each retry consumes the next
proposed order.  `none` means every provided order was rejected, i.e. the
program is still retrying. -/
def tryOrders : List (List UserId) → Pairs → Option Pairs
  | [], _ => none
  | o :: rest, avoid =>
    match tryShuffle o avoid with
    | some ps => some ps
    | none => tryOrders rest avoid

/-- `shuffle_people` from `shuffler.rs`.  Checks, in source order: fewer than
3 people, more exclusions than people, duplicates (detected by sorting and
removing adjacent duplicates, then comparing lengths), then the shuffle/retry
loop. -/
def shuffle_people (orders : List (List UserId)) (people : Players)
    (avoid_pairs : Pairs) : Except ShuffleError (Option Pairs) :=
  if people.length < 3 then .error .TooFewPeople
  else if avoid_pairs.length > people.length then .error .TooManyExclusions
  else
    let players := rustDedup (sortPlayers people)
    if people.length ≠ players.length then .error .DuplicatesDetected
    else .ok (tryOrders orders avoid_pairs)

/-! ## Command parser (`src/parser.rs`) -/

/-- `enum ShuffleParseError` from `parser.rs`. -/
inductive ShuffleParseError
  | MessageTooShort
  | NotShuffleMessage
deriving DecidableEq

/-- `enum MentionParseError` from `parser.rs`. -/
inductive MentionParseError
  | NotAMention
  | TooShort
  | IncorrectLength
  | IllegalCharacter
deriving DecidableEq

/-- `const SHUFFLE_KEYWORD: &str = "!shuffle"`, as its character sequence. -/
def SHUFFLE_KEYWORD : List Char := "!shuffle".toList

/-- `str::len` counts UTF-8 bytes; a message is a sequence of chars, so the
byte length is the sum of the UTF-8 sizes of its chars. -/
def byteLen (l : List Char) : Nat := (l.map (fun c => c.utf8Size)).sum

/-- `const SHUFFLE_KEYWORD_LENGTH: usize = SHUFFLE_KEYWORD.len()` (in bytes). -/
def SHUFFLE_KEYWORD_LENGTH : Nat := byteLen SHUFFLE_KEYWORD

/-- `const MENTION_LENGTH: usize = 21` from `parser.rs`. -/
def MENTION_LENGTH : Nat := 21

/-- `pub const ID_LENGTH: usize = MENTION_LENGTH - 3` from `parser.rs`. -/
def ID_LENGTH : Nat := MENTION_LENGTH - 3

/-- `mention.parse::<u64>()` on a string of decimal digits.  An 18-digit
number is below `2^64`, so the `u64` value is the plain numeric value. -/
def digitsToNat (ds : List Char) : UserId :=
  ds.foldl (fun acc c => 10 * acc + (c.toNat - '0'.toNat)) 0

/-- The digit-reading loop of `parse_possible_mention`: digits are
accumulated, `>` ends the ID, anything else is an `IllegalCharacter`.
Returns the loop result together with the rest of the iterator (bundled with
the fact that the iterator only advances). -/
def readMentionDigits (acc : List Char) : (l : List Char) →
    Except MentionParseError (List Char) × { r : List Char // r.length ≤ l.length }
  | [] => (.ok acc, ⟨[], Nat.le_refl _⟩)
  | c :: rest =>
    if c.isDigit then
      let (res, rem) := readMentionDigits (acc ++ [c]) rest
      (res, ⟨rem.val, Nat.le_trans rem.2 (Nat.le_succ _)⟩)
    else if c = '>' then (.ok acc, ⟨rest, Nat.le_succ _⟩)
    else (.error .IllegalCharacter, ⟨rest, Nat.le_succ _⟩)

/-- `parse_possible_mention` from `parser.rs`.  `message` is the iterator
just after the consumed `<`.  Returns the parse result together with the rest
of the shared iterator. -/
def parse_possible_mention (message : List Char) :
    Except MentionParseError UserId × { r : List Char // r.length ≤ message.length } :=
  if message.length < MENTION_LENGTH - 1 then (.error .TooShort, ⟨message, Nat.le_refl _⟩)
  else
    match message with
    | [] => (.error .TooShort, ⟨[], Nat.le_refl _⟩)
    | next :: rest =>
      if next = '@' then
        match readMentionDigits [] rest with
        | (.error e, rem) => (.error e, ⟨rem.val, Nat.le_trans rem.2 (Nat.le_succ _)⟩)
        | (.ok digits, rem) =>
          if digits.length ≠ ID_LENGTH then
            (.error .IncorrectLength, ⟨rem.val, Nat.le_trans rem.2 (Nat.le_succ _)⟩)
          else (.ok (digitsToNat digits), ⟨rem.val, Nat.le_trans rem.2 (Nat.le_succ _)⟩)
      else (.error .NotAMention, ⟨rest, Nat.le_succ _⟩)

/-- The scanning loop of `parse_shuffle_message`: skip characters until a `<`,
then try to parse a mention on the shared iterator; successes are collected,
mention-level errors are ignored. -/
def scanMentions : List Char → List UserId
  | [] => []
  | c :: rest =>
    if c = '<' then
      match parse_possible_mention rest with
      | (.ok mentioned, rem) => mentioned :: scanMentions rem.val
      | (.error _, rem) => scanMentions rem.val
    else scanMentions rest
termination_by l => l.length
decreasing_by
  · have h := rem.2
    simp only [List.length_cons]
    omega
  · have h := rem.2
    simp only [List.length_cons]
    omega
  · simp only [List.length_cons]
    omega

/-- `parse_shuffle_message` from `parser.rs`: reject messages whose byte
length is below the keyword's, reject messages whose first
`SHUFFLE_KEYWORD_LENGTH` chars differ from the keyword, otherwise scan the
rest for mentions. -/
def parse_shuffle_message (message : List Char) :
    Except ShuffleParseError (List UserId) :=
  if byteLen message < SHUFFLE_KEYWORD_LENGTH then .error .MessageTooShort
  else if message.take SHUFFLE_KEYWORD_LENGTH ≠ SHUFFLE_KEYWORD then .error .NotShuffleMessage
  else .ok (scanMentions (message.drop SHUFFLE_KEYWORD_LENGTH))

/-! ## Game registry (`src/game.rs` and the store operations of `src/main.rs`) -/

/-- `struct Game` from `game.rs`. -/
structure Game where
  owner : UserId
  channel : ChannelId
  pairs : Pairs
deriving DecidableEq

/-- `new_game` from `game.rs`. -/
def new_game (owner : UserId) (channel : ChannelId) (pairs : Pairs) : Game :=
  ⟨owner, channel, pairs⟩

/-- The `HashMap<UserId, Game>` store, modelled as an association list. -/
abbrev GamesMap := List (UserId × Game)

/-- `HashMap::insert`: replace the binding of `key` if present, add it
otherwise. -/
def mapInsert (games : GamesMap) (key : UserId) (g : Game) : GamesMap :=
  games.filter (fun e => e.1 ≠ key) ++ [(key, g)]

/-- `Bot::add_game` from `main.rs`: build the game with the first pair's
first component as owner and insert it keyed by that owner. -/
def add_game (games : GamesMap) (channel : ChannelId) (pairs : Pairs) : GamesMap :=
  let game := new_game (pairs.headI.1) channel pairs
  mapInsert games game.owner game

/-- `Bot::get_game` from `main.rs`: `HashMap` lookup by owner key. -/
def get_game (games : GamesMap) (owner : UserId) : Option Game :=
  (games.find? (fun e => e.1 = owner)).map Prod.snd

/-- `Bot::get_game_by_channel_id` from `main.rs`: linear scan comparing the
channel of every stored game. -/
def get_game_by_channel_id (games : GamesMap) (channel : ChannelId) : Option Game :=
  (games.find? (fun e => channel = e.2.channel)).map Prod.snd

/-- `Bot::remove_game` from `main.rs`: `HashMap::remove` keyed by the game's
owner. -/
def remove_game (games : GamesMap) (g : Game) : GamesMap :=
  games.filter (fun e => e.1 ≠ g.owner)

/-- The registry-update sequence of `guild_message` (`main.rs`), which is the
spec's `put(round)`: look up any game of this channel, remove it if present,
then `add_game` the new pairs for this channel. -/
def put_round (games : GamesMap) (channel : ChannelId) (pairs : Pairs) : GamesMap :=
  match get_game_by_channel_id games channel with
  | some g => add_game (remove_game games g) channel pairs
  | none => add_game games channel pairs

/-- Every stored key occurs once ("exactly one entry per initiator"). -/
def KeysNodup (gs : GamesMap) : Prop := (gs.map Prod.fst).Nodup

/-- No two stored games share a conversation. -/
def ConvsNodup (gs : GamesMap) : Prop := (gs.map (fun e => e.2.channel)).Nodup

/-- Every entry is keyed by its game's owner (true of everything `add_game`
inserts). -/
def KeyCoherent (gs : GamesMap) : Prop := ∀ e ∈ gs, e.1 = e.2.owner

/-! ## Round orchestrator (`src/main.rs`) -/

/-- The error texts `guild_message` sends to the requesting channel while
notifying players. -/
inductive Report
  | createDmFailed (p : UserId)
  | sendDmFailed (p : UserId)
  | hostDmFailed (p : UserId)
deriving DecidableEq

/-- Result of the notification loop: the role DMs that were delivered, and
the error reports said to the requesting channel, in order. -/
structure NotifyResult where
  dmsSent : List (UserId × UserId)
  reports : List Report
deriving DecidableEq

/-- The per-participant notification loop at the end of `guild_message`:
for each `(player, avatar)` pair, open a DM channel (on failure: report and
`return`, i.e. stop the whole loop), send the role DM (on failure: report and
continue), and if the player is the host additionally send the host notice
(on failure: report and continue).  The oracles tell which effectful calls
succeed. -/
def notify_players (chanOk sendOk hostOk : UserId → Bool) (host : UserId) :
    List (UserId × UserId) → NotifyResult
  | [] => ⟨[], []⟩
  | (player, avatar) :: rest =>
    if chanOk player then
      let r := notify_players chanOk sendOk hostOk host rest
      let dmSent := if sendOk player then [(player, avatar)] else []
      let dmRep : List Report := if sendOk player then [] else [.sendDmFailed player]
      let hostRep : List Report :=
        if player = host ∧ hostOk player = false then [.hostDmFailed player] else []
      ⟨dmSent ++ r.dmsSent, dmRep ++ hostRep ++ r.reports⟩
    else ⟨[], [.createDmFailed player]⟩

/-- The texts `guild_message` can send to the requesting channel. -/
inductive ChanMsg
  | tooFewPeople
  | shuffleError (e : ShuffleError)
  | notifyReport (r : Report)
deriving DecidableEq

/-- The exclusion pairs fed to the shuffler: the previous game's pairs if the
channel has one, empty otherwise. -/
def avoidOf : Option Game → Pairs
  | some g => g.pairs
  | none => []

/-- Observable outcome of handling one guild message: the registry afterwards,
the texts said to the requesting channel, and the role DMs delivered. -/
structure GuildResult where
  games : GamesMap
  channelMsgs : List ChanMsg
  dms : List (UserId × UserId)
deriving DecidableEq

/-- `Bot::guild_message` from `main.rs`.  `mentions` is `msg.mentions` as
(id, is-bot) pairs; `content` is `msg.content`; `orders` models the
shuffler's randomness; the `Ok` payload of the parser is discarded by the
code, which reads the mentions from `msg.mentions` instead.  `none` models
the shuffler retrying beyond the provided orders. -/
def guild_message (orders : List (List UserId)) (chanOk sendOk hostOk : UserId → Bool)
    (content : List Char) (mentions : List (UserId × Bool)) (channel : ChannelId)
    (games : GamesMap) : Option GuildResult :=
  match parse_shuffle_message content with
  | .error _ => some ⟨games, [], []⟩
  | .ok _ =>
    let mentioned : Players := (mentions.filter (fun u => !u.2)).map Prod.fst
    if mentioned.length < 3 then some ⟨games, [.tooFewPeople], []⟩
    else
      let prev := get_game_by_channel_id games channel
      match shuffle_people orders mentioned (avoidOf prev) with
      | .error e => some ⟨games, [.shuffleError e], []⟩
      | .ok none => none
      | .ok (some pairs) =>
        let games1 := match prev with
          | some g => remove_game games g
          | none => games
        let games2 := add_game games1 channel pairs
        let host := pairs.headI.1
        let nr := notify_players chanOk sendOk hostOk host pairs
        some ⟨games2, nr.reports.map .notifyReport, nr.dmsSent⟩

/-- What `direct_message` sends: the relayed host text to the game's channel,
or the error report on relay failure. -/
inductive DmOut
  | relayed (channel : ChannelId) (content : List Char)
  | relayError
deriving DecidableEq

/-- `Bot::direct_message` from `main.rs`: ignore bot authors, look the game up
by the author id (no game: silently ignore), and relay the content to the
game's channel; a relay failure is reported back.  The registry is returned
alongside the outputs. -/
def direct_message (relayOk : Bool) (authorBot : Bool) (author : UserId)
    (content : List Char) (games : GamesMap) : GamesMap × List DmOut :=
  if authorBot then (games, [])
  else
    match get_game games author with
    | none => (games, [])
    | some g =>
      if relayOk then (games, [.relayed g.channel content])
      else (games, [.relayError])

/-- Formalisation of the claim that the command extractor recognizes exactly
two literal command prefixes, a long and a short form: there are two command
words, the short one shorter than the long one, a message is accepted exactly
when it starts with one of them, and each of the two actually accounts for
some accepted message that the other does not cover. -/
def RecognizesTwoPrefixes : Prop :=
  ∃ long short : List Char,
    short.length < long.length ∧
    (∀ m, (parse_shuffle_message m).isOk = true ↔ (long <+: m ∨ short <+: m)) ∧
    (∃ m, (parse_shuffle_message m).isOk = true ∧ ¬ long <+: m) ∧
    (∃ m, (parse_shuffle_message m).isOk = true ∧ ¬ short <+: m)

/-! ## Helper lemmas: sort/dedup duplicate detection -/

theorem dedupAdjacent_sublist (prev : UserId) (l : List UserId) :
    (dedupAdjacent prev l).Sublist l := by
  induction l generalizing prev with
  | nil => simp [dedupAdjacent]
  | cons b rest ih =>
    simp only [dedupAdjacent]
    by_cases hpb : prev = b
    · rw [if_pos hpb]
      exact (ih prev).trans (List.sublist_cons_self b rest)
    · rw [if_neg hpb]
      exact (ih b).cons₂ b

theorem chain_ne_of_dedupAdjacent_eq {prev : UserId} {l : List UserId}
    (h : dedupAdjacent prev l = l) : List.Chain (· ≠ ·) prev l := by
  induction l generalizing prev with
  | nil => exact List.Chain.nil
  | cons b rest ih =>
    simp only [dedupAdjacent] at h
    by_cases hpb : prev = b
    · exfalso
      rw [if_pos hpb] at h
      have hlen := (dedupAdjacent_sublist prev rest).length_le
      rw [h] at hlen
      simp at hlen
    · rw [if_neg hpb] at h
      have htail : dedupAdjacent b rest = rest := by
        injection h
      exact List.Chain.cons hpb (ih htail)

theorem sorted_chain_ne_nodup : ∀ {l : List UserId},
    l.Sorted (· ≤ ·) → l.Chain' (· ≠ ·) → l.Nodup := by
  intro l
  induction l with
  | nil => intro _ _; exact List.nodup_nil
  | cons a t ih =>
    intro hs hc
    have hs' := List.sorted_cons.mp hs
    have hchain : List.Chain (· ≠ ·) a t := hc
    have hct : t.Chain' (· ≠ ·) := by
      cases t with
      | nil => trivial
      | cons b t' => exact (List.chain_cons.mp hchain).2
    refine List.nodup_cons.mpr ⟨?_, ih hs'.2 hct⟩
    cases t with
    | nil => simp
    | cons b t' =>
      intro hmem
      obtain ⟨hab, -⟩ := List.chain_cons.mp hchain
      have haleb : a ≤ b := hs'.1 b (List.mem_cons_self b t')
      rcases List.mem_cons.mp hmem with rfl | hmem'
      · exact hab rfl
      · have hble : ∀ c ∈ t', b ≤ c := (List.sorted_cons.mp hs'.2).1
        have hbla := hble a hmem'
        exact hab (Nat.le_antisymm haleb hbla)

theorem people_nodup_of_len_eq {people : Players}
    (h : people.length = (rustDedup (sortPlayers people)).length) : people.Nodup := by
  have hperm : (sortPlayers people).Perm people := List.perm_insertionSort _ people
  have hslen : (sortPlayers people).length = people.length := hperm.length_eq
  have hsub : (rustDedup (sortPlayers people)).Sublist (sortPlayers people) := by
    cases hcase : sortPlayers people with
    | nil => simp [rustDedup]
    | cons a rest =>
      simp only [rustDedup]
      exact (dedupAdjacent_sublist a rest).cons₂ a
  have heq : rustDedup (sortPlayers people) = sortPlayers people :=
    hsub.eq_of_length (by rw [hslen, ← h])
  have hchain : (sortPlayers people).Chain' (· ≠ ·) := by
    cases hcase : sortPlayers people with
    | nil => trivial
    | cons a rest =>
      rw [hcase] at heq
      simp only [rustDedup] at heq
      have : dedupAdjacent a rest = rest := by injection heq
      exact chain_ne_of_dedupAdjacent_eq this
  have hsort : (sortPlayers people).Sorted (· ≤ ·) :=
    List.sorted_insertionSort _ people
  exact hperm.nodup (sorted_chain_ne_nodup hsort hchain)

/-! ## Helper lemmas: unpacking a successful shuffle -/

theorem shuffle_people_ok_elim {orders : List (List UserId)} {people : Players}
    {avoid : Pairs} {res : Option Pairs}
    (h : shuffle_people orders people avoid = .ok res) :
    ¬ people.length < 3 ∧ avoid.length ≤ people.length ∧ people.Nodup ∧
      tryOrders orders avoid = res := by
  simp only [shuffle_people] at h
  by_cases h1 : people.length < 3
  · rw [if_pos h1] at h
    exact Except.noConfusion h
  · rw [if_neg h1] at h
    by_cases h2 : avoid.length > people.length
    · rw [if_pos h2] at h
      exact Except.noConfusion h
    · rw [if_neg h2] at h
      by_cases h3 : people.length ≠ (rustDedup (sortPlayers people)).length
      · rw [if_pos h3] at h
        exact Except.noConfusion h
      · rw [if_neg h3] at h
        push_neg at h3
        exact ⟨h1, by omega, people_nodup_of_len_eq h3, Except.ok.inj h⟩

theorem tryOrders_some {orders : List (List UserId)} {avoid ps : Pairs}
    (h : tryOrders orders avoid = some ps) :
    ∃ o ∈ orders, tryShuffle o avoid = some ps := by
  induction orders with
  | nil => simp [tryOrders] at h
  | cons o rest ih =>
    simp only [tryOrders] at h
    split at h
    · next ps2 hts =>
      cases h
      exact ⟨o, List.mem_cons_self o rest, hts⟩
    · next hts =>
      obtain ⟨o2, ho2, h2⟩ := ih h
      exact ⟨o2, List.mem_cons_of_mem _ ho2, h2⟩

theorem tryShuffle_some {o : List UserId} {avoid ps : Pairs}
    (h : tryShuffle o avoid = some ps) :
    ps = cyclePairs o ∧ ∀ p ∈ ps, p ∉ avoid := by
  unfold tryShuffle at h
  split at h
  · exact Option.noConfusion h
  · next hany =>
    cases h
    refine ⟨rfl, fun p hp hmem => hany ?_⟩
    rw [List.any_eq_true]
    exact ⟨p, hp, by simpa using hmem⟩

/-! ## Helper lemmas: the formed pairs are a cycle -/

theorem cyclePairs_length (x : UserId) (xs : List UserId) :
    (cyclePairs (x :: xs)).length = xs.length + 1 := by
  simp [cyclePairs]

theorem cyclePairs_getElem (x : UserId) (xs : List UserId) (i : Nat)
    (h : i < (cyclePairs (x :: xs)).length) :
    (cyclePairs (x :: xs)).get ⟨i, h⟩
      = ((x :: xs).get ⟨i, by rw [cyclePairs_length] at h; simpa using h⟩,
         (xs ++ [x]).get ⟨i, by rw [cyclePairs_length] at h; simpa using h⟩) := by
  simp only [cyclePairs, List.get_eq_getElem]
  exact List.getElem_zip

theorem cyclePairs_map_fst (x : UserId) (xs : List UserId) :
    (cyclePairs (x :: xs)).map Prod.fst = x :: xs := by
  simp only [cyclePairs]
  exact List.map_fst_zip _ _ (by simp)

theorem cyclePairs_map_snd (x : UserId) (xs : List UserId) :
    (cyclePairs (x :: xs)).map Prod.snd = xs ++ [x] := by
  simp only [cyclePairs]
  exact List.map_snd_zip _ _ (by simp)

/-! ## The claims about the shuffle engine -/

/-- C1: for every list of at least 3 pairwise-distinct participant
identifiers and every avoid-set, if `shuffle_people` returns `Ok` with an
assignment, then the assignment is a single cycle covering every participant
exactly once: the assignees are a permutation of the participants, so are the
targets, each pair's target is the next pair's assignee, the last pair's
target is the first pair's assignee, and no pair assigns a participant to
themselves.  The orders hypothesis records that `Vec::shuffle` permutes the
player list. -/
theorem shuffle_people_single_cycle (orders : List (List UserId)) (people : Players)
    (avoid assignment : Pairs)
    (h3 : 3 ≤ people.length) (hnd : people.Nodup)
    (horders : ∀ o ∈ orders, o.Perm people)
    (h : shuffle_people orders people avoid = .ok (some assignment)) :
    ((assignment.map Prod.fst).Perm people) ∧
    ((assignment.map Prod.snd).Perm people) ∧
    (∀ i (hi : i + 1 < assignment.length),
      (assignment.get ⟨i, by omega⟩).2 = (assignment.get ⟨i + 1, hi⟩).1) ∧
    (∀ hne : assignment ≠ [],
      (assignment.getLast hne).2 = (assignment.head hne).1) ∧
    (∀ p ∈ assignment, p.1 ≠ p.2) := by
  obtain ⟨-, -, -, hto⟩ := shuffle_people_ok_elim h
  obtain ⟨o, ho, hts⟩ := tryOrders_some hto
  obtain ⟨rfl, -⟩ := tryShuffle_some hts
  have hperm : o.Perm people := horders o ho
  have hnodupo : o.Nodup := hperm.symm.nodup hnd
  have hleno : o.length = people.length := hperm.length_eq
  cases o with
  | nil => simp at hleno; omega
  | cons x xs =>
    have hn2 : 2 ≤ xs.length := by
      simp at hleno; omega
    refine ⟨?_, ?_, ?_, ?_, ?_⟩
    · rw [cyclePairs_map_fst]
      exact hperm
    · rw [cyclePairs_map_snd]
      exact (List.perm_append_singleton x xs).trans hperm
    · intro i hi
      rw [cyclePairs_length] at hi
      rw [cyclePairs_getElem x xs i (by rw [cyclePairs_length]; omega),
        cyclePairs_getElem x xs (i + 1) (by rw [cyclePairs_length]; omega)]
      simp only [List.get_eq_getElem]
      rw [List.getElem_append_left (by omega : i < xs.length), List.getElem_cons_succ]
    · intro hne
      have hlen : (cyclePairs (x :: xs)).length = xs.length + 1 := cyclePairs_length x xs
      rw [List.getLast_eq_getElem, List.head_eq_getElem]
      have h0 : (0 : Nat) < (cyclePairs (x :: xs)).length := by omega
      have hlast : (cyclePairs (x :: xs)).length - 1 < (cyclePairs (x :: xs)).length := by omega
      rw [← List.get_eq_getElem _ ⟨_, hlast⟩, ← List.get_eq_getElem _ ⟨0, h0⟩,
        cyclePairs_getElem x xs _ hlast, cyclePairs_getElem x xs 0 h0]
      simp only [List.get_eq_getElem]
      have hidx : (cyclePairs (x :: xs)).length - 1 = xs.length := by omega
      simp only [hidx]
      rw [List.getElem_append_right (Nat.le_refl xs.length)]
      simp
    · intro p hp
      obtain ⟨i, hilt, hieq⟩ := List.mem_iff_getElem.mp hp
      have hlen : (cyclePairs (x :: xs)).length = xs.length + 1 := cyclePairs_length x xs
      rw [← List.get_eq_getElem _ ⟨i, hilt⟩, cyclePairs_getElem x xs i hilt] at hieq
      have hlc : (x :: xs).length = xs.length + 1 := by simp
      by_cases hi : i < xs.length
      · intro hcontra
        rw [← hieq] at hcontra
        simp only [List.get_eq_getElem] at hcontra
        rw [List.getElem_append_left hi] at hcontra
        have hstep : (x :: xs)[i] = (x :: xs)[i + 1] := by
          rw [List.getElem_cons_succ]
          exact hcontra
        have := (hnodupo.getElem_inj_iff).mp hstep
        omega
      · have hieqn : i = xs.length := by omega
        subst hieqn
        intro hcontra
        rw [← hieq] at hcontra
        simp only [List.get_eq_getElem] at hcontra
        rw [List.getElem_append_right (Nat.le_refl xs.length)] at hcontra
        simp only [Nat.sub_self, List.getElem_singleton] at hcontra
        have hx0 : (x :: xs)[xs.length] = (x :: xs)[0] := by
          simpa using hcontra
        have := (hnodupo.getElem_inj_iff).mp hx0
        omega

/-- C1 witness: a concrete successful shuffle of three distinct participants
with one proposed order. -/
theorem shuffle_people_single_cycle_witness :
    ((([(1,2),(2,3),(3,1)] : Pairs).map Prod.fst).Perm [1,2,3]) ∧
    ((([(1,2),(2,3),(3,1)] : Pairs).map Prod.snd).Perm [1,2,3]) ∧
    (∀ i (hi : i + 1 < ([(1,2),(2,3),(3,1)] : Pairs).length),
      (([(1,2),(2,3),(3,1)] : Pairs).get ⟨i, by omega⟩).2
        = (([(1,2),(2,3),(3,1)] : Pairs).get ⟨i + 1, hi⟩).1) ∧
    (∀ hne : ([(1,2),(2,3),(3,1)] : Pairs) ≠ [],
      (([(1,2),(2,3),(3,1)] : Pairs).getLast hne).2
        = (([(1,2),(2,3),(3,1)] : Pairs).head hne).1) ∧
    (∀ p ∈ ([(1,2),(2,3),(3,1)] : Pairs), p.1 ≠ p.2) :=
  shuffle_people_single_cycle [[1,2,3]] [1,2,3] [] [(1,2),(2,3),(3,1)]
    (by decide) (by decide) (by decide) (by decide)

/-- C2: whenever `shuffle_people` returns `Ok` with an assignment and the
avoid-set is no larger than the participant list, no returned pair is a
member of the avoid-set, regardless of how many retries (rejected orders)
preceded the accepted one. -/
theorem shuffle_people_respects_avoid (orders : List (List UserId)) (people : Players)
    (avoid assignment : Pairs) (hsize : avoid.length ≤ people.length)
    (h : shuffle_people orders people avoid = .ok (some assignment)) :
    ∀ p ∈ assignment, p ∉ avoid := by
  obtain ⟨-, -, -, hto⟩ := shuffle_people_ok_elim h
  obtain ⟨o, -, hts⟩ := tryOrders_some hto
  exact (tryShuffle_some hts).2

/-- C2 witness: a shuffle whose first proposed order hits the avoid-set and
whose second is accepted; none of the three returned pairs is in the
avoid-set. -/
theorem shuffle_people_respects_avoid_witness :
    ((2,1) : UserId × UserId) ∉ ([(1,2)] : Pairs) ∧
    ((1,3) : UserId × UserId) ∉ ([(1,2)] : Pairs) ∧
    ((3,2) : UserId × UserId) ∉ ([(1,2)] : Pairs) :=
  ⟨shuffle_people_respects_avoid [[1,2,3],[2,1,3]] [1,2,3] [(1,2)] [(2,1),(1,3),(3,2)]
      (by decide) (by decide) (2,1) (by decide),
    shuffle_people_respects_avoid [[1,2,3],[2,1,3]] [1,2,3] [(1,2)] [(2,1),(1,3),(3,2)]
      (by decide) (by decide) (1,3) (by decide),
    shuffle_people_respects_avoid [[1,2,3],[2,1,3]] [1,2,3] [(1,2)] [(2,1),(1,3),(3,2)]
      (by decide) (by decide) (3,2) (by decide)⟩

/-- C4 counterexample: two input lists with a repeated identifier on which
`shuffle_people` does not fail with `DuplicatesDetected`: with fewer than 3
entries the length check fires first, and with an avoid-set larger than the
participant list the exclusion check fires first — so the outcome does depend
on the size of the avoid-set. -/
theorem shuffle_people_duplicates_cex :
    (¬ ([1,1] : Players).Nodup
      ∧ shuffle_people [] [1,1] [] = .error .TooFewPeople) ∧
    (¬ ([1,1,2] : Players).Nodup
      ∧ shuffle_people [] [1,1,2] [(1,2),(2,1),(1,3),(3,1)] = .error .TooManyExclusions) := by
  decide

/-- C4 (amended): for every input list with at least 3 entries that contains
a repeated identifier, `shuffle_people` fails with `DuplicatesDetected`
whenever the avoid-set is no larger than the participant list. -/
theorem shuffle_people_duplicates (orders : List (List UserId)) (people : Players)
    (avoid : Pairs) (h3 : 3 ≤ people.length) (hsize : avoid.length ≤ people.length)
    (hdup : ¬ people.Nodup) :
    shuffle_people orders people avoid = .error .DuplicatesDetected := by
  simp only [shuffle_people]
  rw [if_neg (by omega), if_neg (by omega),
    if_pos (fun heq => hdup (people_nodup_of_len_eq heq))]

/-- C4 (amended) witness. -/
theorem shuffle_people_duplicates_witness :
    shuffle_people [] [1,1,2,3] [] = .error .DuplicatesDetected :=
  shuffle_people_duplicates [] [1,1,2,3] [] (by decide) (by decide) (by decide)

/-- C5 counterexample: an input list with fewer than 3 distinct identifiers
(counting each once) on which `shuffle_people` fails with
`DuplicatesDetected`, not `TooFewPeople`: the length check looks at the raw
list length (3 here), so the duplicate check fires instead. -/
theorem shuffle_people_too_few_cex :
    ([1,1,2] : Players).dedup.length < 3
      ∧ shuffle_people [] [1,1,2] [] = .error .DuplicatesDetected := by
  decide

/-- C5 (amended): for every input list with fewer than 3 entries (counted
with multiplicity), `shuffle_people` fails with `TooFewPeople`. -/
theorem shuffle_people_too_few (orders : List (List UserId)) (people : Players)
    (avoid : Pairs) (h : people.length < 3) :
    shuffle_people orders people avoid = .error .TooFewPeople := by
  simp only [shuffle_people]
  rw [if_pos h]

/-- C5 (amended) witness. -/
theorem shuffle_people_too_few_witness :
    shuffle_people [] [1,2] [] = .error .TooFewPeople :=
  shuffle_people_too_few [] [1,2] [] (by decide)

/-! ## Helper lemmas: the game registry -/

theorem mem_mapInsert {gs : GamesMap} {k : UserId} {g : Game} {e : UserId × Game} :
    e ∈ mapInsert gs k g ↔ (e ∈ gs ∧ e.1 ≠ k) ∨ e = (k, g) := by
  simp [mapInsert, List.mem_filter, List.mem_append]

theorem keysNodup_filter {gs : GamesMap} (p : UserId × Game → Bool) (h : KeysNodup gs) :
    KeysNodup (gs.filter p) :=
  List.Nodup.sublist (List.Sublist.map Prod.fst (List.filter_sublist gs)) h

theorem convsNodup_filter {gs : GamesMap} (p : UserId × Game → Bool) (h : ConvsNodup gs) :
    ConvsNodup (gs.filter p) :=
  List.Nodup.sublist (List.Sublist.map _ (List.filter_sublist gs)) h

theorem keysNodup_mapInsert {gs : GamesMap} {k : UserId} {g : Game} (h : KeysNodup gs) :
    KeysNodup (mapInsert gs k g) := by
  unfold KeysNodup mapInsert
  rw [List.map_append]
  have hperm := List.perm_append_singleton ((k, g).1)
    (List.map Prod.fst (gs.filter (fun e => e.1 ≠ k)))
  rw [show List.map Prod.fst [(k, g)] = [(k, g).1] from rfl]
  rw [hperm.nodup_iff]
  refine List.nodup_cons.mpr ⟨?_, keysNodup_filter _ h⟩
  intro hkmem
  obtain ⟨e, he, hek⟩ := List.mem_map.mp hkmem
  have := (List.mem_filter.mp he).2
  simp only [decide_eq_true_eq] at this
  exact this hek

theorem convsNodup_mapInsert {gs : GamesMap} {k : UserId} {g : Game} (h : ConvsNodup gs)
    (hch : ∀ e ∈ gs, e.1 ≠ k → e.2.channel ≠ g.channel) :
    ConvsNodup (mapInsert gs k g) := by
  unfold ConvsNodup mapInsert
  rw [List.map_append]
  have hperm := List.perm_append_singleton g.channel
    (List.map (fun e => e.2.channel) (gs.filter (fun e => e.1 ≠ k)))
  rw [show List.map (fun e => e.2.channel) [(k, g)] = [g.channel] from rfl]
  rw [hperm.nodup_iff]
  refine List.nodup_cons.mpr ⟨?_, convsNodup_filter _ h⟩
  intro hcmem
  obtain ⟨e, he, hec⟩ := List.mem_map.mp hcmem
  obtain ⟨hein, hkey⟩ := List.mem_filter.mp he
  simp only [decide_eq_true_eq] at hkey
  exact hch e hein hkey hec

theorem find?_append_none {α : Type} {p : α → Bool} {l₁ l₂ : List α}
    (h : l₁.find? p = none) : (l₁ ++ l₂).find? p = l₂.find? p := by
  rw [List.find?_append, h]
  rfl

theorem get_game_mapInsert_self (gs : GamesMap) (k : UserId) (g : Game) :
    get_game (mapInsert gs k g) k = some g := by
  unfold get_game mapInsert
  rw [find?_append_none]
  · simp [List.find?]
  · refine List.find?_eq_none.mpr ?_
    intro e he
    have := (List.mem_filter.mp he).2
    simp only [decide_eq_true_eq] at this
    simp [this]

/-- The combined postcondition of `HashMap::insert` with a fresh conversation:
keys stay unique, conversations stay unique, the inserted game is found under
its key, and it is the only game of its conversation. -/
theorem mapInsert_spec (base : GamesMap) (k : UserId) (g : Game)
    (hk : KeysNodup base) (hc : ConvsNodup base)
    (hch : ∀ e ∈ base, e.2.channel ≠ g.channel) :
    KeysNodup (mapInsert base k g) ∧ ConvsNodup (mapInsert base k g) ∧
    get_game (mapInsert base k g) k = some g ∧
    ∀ e ∈ mapInsert base k g, e.2.channel = g.channel → e.2 = g := by
  refine ⟨keysNodup_mapInsert hk,
    convsNodup_mapInsert hc (fun e he _ => hch e he),
    get_game_mapInsert_self _ _ _, ?_⟩
  intro e he hech
  rcases mem_mapInsert.mp he with ⟨hin, -⟩ | rfl
  · exact absurd hech (hch e hin)
  · rfl

theorem get_game_by_channel_some {gs : GamesMap} {channel : ChannelId} {g : Game}
    (h : get_game_by_channel_id gs channel = some g) :
    ∃ e ∈ gs, e.2 = g ∧ g.channel = channel := by
  unfold get_game_by_channel_id at h
  rw [Option.map_eq_some'] at h
  obtain ⟨e, hfind, hsnd⟩ := h
  have hp := List.find?_some hfind
  simp only [decide_eq_true_eq] at hp
  exact ⟨e, List.mem_of_find?_eq_some hfind, hsnd, by rw [← hsnd, ← hp]⟩

theorem get_game_by_channel_none {gs : GamesMap} {channel : ChannelId}
    (h : get_game_by_channel_id gs channel = none) :
    ∀ e ∈ gs, e.2.channel ≠ channel := by
  unfold get_game_by_channel_id at h
  rw [Option.map_eq_none'] at h
  intro e he
  have := List.find?_eq_none.mp h e he
  simp only [decide_eq_true_eq] at this
  exact fun hcontra => this hcontra.symm

theorem get_game_by_channel_eq_none {gs : GamesMap} {channel : ChannelId}
    (h : ∀ e ∈ gs, e.2.channel ≠ channel) :
    get_game_by_channel_id gs channel = none := by
  unfold get_game_by_channel_id
  rw [Option.map_eq_none']
  refine List.find?_eq_none.mpr ?_
  intro e he
  simp only [decide_eq_true_eq]
  exact fun hcontra => h e he hcontra.symm

/-- Two registry entries sharing a conversation are the same entry, given the
no-shared-conversation invariant. -/
theorem convs_inj {gs : GamesMap} (hc : ConvsNodup gs) {e₁ e₂ : UserId × Game}
    (h1 : e₁ ∈ gs) (h2 : e₂ ∈ gs) (hch : e₁.2.channel = e₂.2.channel) : e₁ = e₂ :=
  List.inj_on_of_nodup_map hc h1 h2 hch

/-- Both branches of `put_round` end in the same insert, so the new round is
found under its initiator's key. -/
theorem get_game_put_round_self (gs : GamesMap) (channel : ChannelId) (pairs : Pairs) :
    get_game (put_round gs channel pairs) pairs.headI.1
      = some (new_game pairs.headI.1 channel pairs) := by
  unfold put_round
  split <;> (simp only [add_game]; exact get_game_mapInsert_self _ _ _)

/-- Membership in the updated registry: the new entry, or an old entry whose
key differs from the new initiator (and which survived the by-channel
eviction). -/
theorem put_round_mem {gs : GamesMap} {channel : ChannelId} {pairs : Pairs}
    {e : UserId × Game} (he : e ∈ put_round gs channel pairs) :
    e = (pairs.headI.1, new_game pairs.headI.1 channel pairs)
      ∨ (e ∈ gs ∧ e.1 ≠ pairs.headI.1) := by
  unfold put_round at he
  split at he <;> simp only [add_game] at he
  · rcases mem_mapInsert.mp he with ⟨hin, hne⟩ | rfl
    · exact Or.inr ⟨(List.mem_filter.mp hin).1, hne⟩
    · exact Or.inl rfl
  · rcases mem_mapInsert.mp he with ⟨hin, hne⟩ | rfl
    · exact Or.inr ⟨hin, hne⟩
    · exact Or.inl rfl

/-! ## The claims about the registry update -/

/-- C3: under the registry invariants, the `put` sequence of `guild_message`
(evict any round of the same conversation, then insert keyed by the new
initiator) leaves exactly one entry per initiator, no two entries sharing a
conversation, the new round stored under its initiator, and no surviving
entry of the round's conversation other than the new round itself. -/
theorem put_round_spec (gs : GamesMap) (channel : ChannelId) (pairs : Pairs)
    (hk : KeysNodup gs) (hc : ConvsNodup gs) (hco : KeyCoherent gs) :
    KeysNodup (put_round gs channel pairs) ∧
    ConvsNodup (put_round gs channel pairs) ∧
    get_game (put_round gs channel pairs) pairs.headI.1
      = some (new_game pairs.headI.1 channel pairs) ∧
    (∀ e ∈ put_round gs channel pairs, e.2.channel = channel →
      e.2 = new_game pairs.headI.1 channel pairs) := by
  unfold put_round
  cases hfind : get_game_by_channel_id gs channel with
  | none =>
    have hch := get_game_by_channel_none hfind
    simp only [add_game]
    exact mapInsert_spec gs _ _ hk hc hch
  | some g =>
    obtain ⟨e₀, he₀, he₀g, hchan⟩ := get_game_by_channel_some hfind
    simp only [add_game, remove_game]
    refine mapInsert_spec _ _ _ (keysNodup_filter _ hk) (convsNodup_filter _ hc) ?_
    intro e he hech
    obtain ⟨hein, hkey⟩ := List.mem_filter.mp he
    simp only [decide_eq_true_eq] at hkey
    have hee₀ : e = e₀ := by
      refine convs_inj hc hein he₀ ?_
      rw [hech, he₀g, hchan]
      rfl
    apply hkey
    rw [hee₀, hco e₀ he₀, he₀g]

/-- C3 witness: a registry holding one round for another conversation, updated
with a fresh round for a new conversation. -/
theorem put_round_spec_witness :
    KeysNodup (put_round [(7, ⟨7, 100, [(7,8),(8,9),(9,7)]⟩)] 200 [(1,2),(2,3),(3,1)]) ∧
    ConvsNodup (put_round [(7, ⟨7, 100, [(7,8),(8,9),(9,7)]⟩)] 200 [(1,2),(2,3),(3,1)]) ∧
    get_game (put_round [(7, ⟨7, 100, [(7,8),(8,9),(9,7)]⟩)] 200 [(1,2),(2,3),(3,1)])
        ([(1,2),(2,3),(3,1)] : Pairs).headI.1
      = some (new_game ([(1,2),(2,3),(3,1)] : Pairs).headI.1 200 [(1,2),(2,3),(3,1)]) ∧
    (∀ e ∈ put_round [(7, ⟨7, 100, [(7,8),(8,9),(9,7)]⟩)] 200 [(1,2),(2,3),(3,1)],
      e.2.channel = 200 → e.2 = new_game ([(1,2),(2,3),(3,1)] : Pairs).headI.1 200 [(1,2),(2,3),(3,1)]) :=
  put_round_spec [(7, ⟨7, 100, [(7,8),(8,9),(9,7)]⟩)] 200 [(1,2),(2,3),(3,1)]
    (by unfold KeysNodup; decide) (by unfold ConvsNodup; decide)
    (by unfold KeyCoherent; decide)

/-- C9: if the new round's initiator (the first generated pair's first
component) already owns a round `g0` in a different conversation, the insert
silently overwrites that entry: afterwards the initiator's key holds the new
round and `g0`'s conversation has no round at all. -/
theorem put_round_overwrites (gs : GamesMap) (channel : ChannelId) (pairs : Pairs)
    (g0 : Game) (hc : ConvsNodup gs) (hmem : (pairs.headI.1, g0) ∈ gs)
    (hch : g0.channel ≠ channel) :
    get_game (put_round gs channel pairs) pairs.headI.1
      = some (new_game pairs.headI.1 channel pairs) ∧
    get_game_by_channel_id (put_round gs channel pairs) g0.channel = none := by
  refine ⟨get_game_put_round_self gs channel pairs, get_game_by_channel_eq_none ?_⟩
  intro e he
  rcases put_round_mem he with rfl | ⟨hin, hne⟩
  · exact fun hcontra => hch hcontra.symm
  · intro hcontra
    have : e = (pairs.headI.1, g0) := convs_inj hc hin hmem hcontra
    apply hne
    rw [this]

/-- C9 witness: participant 1 owns the round of conversation 100; a new round
for conversation 200 initiated by 1 overwrites it, leaving conversation 100
without a round. -/
theorem put_round_overwrites_witness :
    get_game (put_round [(1, ⟨1, 100, [(1,4),(4,5),(5,1)]⟩)] 200 [(1,2),(2,3),(3,1)])
        ([(1,2),(2,3),(3,1)] : Pairs).headI.1
      = some (new_game ([(1,2),(2,3),(3,1)] : Pairs).headI.1 200 [(1,2),(2,3),(3,1)]) ∧
    get_game_by_channel_id
        (put_round [(1, ⟨1, 100, [(1,4),(4,5),(5,1)]⟩)] 200 [(1,2),(2,3),(3,1)])
        (Game.channel ⟨1, 100, [(1,4),(4,5),(5,1)]⟩) = none :=
  put_round_overwrites [(1, ⟨1, 100, [(1,4),(4,5),(5,1)]⟩)] 200 [(1,2),(2,3),(3,1)]
    ⟨1, 100, [(1,4),(4,5),(5,1)]⟩ (by unfold ConvsNodup; decide) (by decide) (by decide)

/-! ## Helper lemmas: the command parser -/

theorem byteLen_append (l₁ l₂ : List Char) :
    byteLen (l₁ ++ l₂) = byteLen l₁ + byteLen l₂ := by
  simp [byteLen]

theorem kw_length : SHUFFLE_KEYWORD.length = 8 := by decide

theorem skl_eq_kw_length : SHUFFLE_KEYWORD_LENGTH = SHUFFLE_KEYWORD.length := by decide

/-- A message starting with the keyword parses to the mention scan of its
tail. -/
theorem parse_shuffle_message_keyword_append (t : List Char) :
    parse_shuffle_message (SHUFFLE_KEYWORD ++ t) = .ok (scanMentions t) := by
  have hbl : ¬ byteLen (SHUFFLE_KEYWORD ++ t) < SHUFFLE_KEYWORD_LENGTH := by
    rw [byteLen_append]
    have h8 : SHUFFLE_KEYWORD_LENGTH = byteLen SHUFFLE_KEYWORD := rfl
    omega
  have htake : ¬ (SHUFFLE_KEYWORD ++ t).take SHUFFLE_KEYWORD_LENGTH ≠ SHUFFLE_KEYWORD := by
    rw [skl_eq_kw_length, List.take_left]
    simp
  unfold parse_shuffle_message
  rw [if_neg hbl, if_neg htake, skl_eq_kw_length, List.drop_left]

theorem parse_ok_iff (m : List Char) :
    (parse_shuffle_message m).isOk = true ↔ SHUFFLE_KEYWORD <+: m := by
  constructor
  · intro h
    unfold parse_shuffle_message at h
    by_cases h1 : byteLen m < SHUFFLE_KEYWORD_LENGTH
    · rw [if_pos h1] at h
      simp [Except.isOk, Except.toBool] at h
    · rw [if_neg h1] at h
      by_cases h2 : m.take SHUFFLE_KEYWORD_LENGTH ≠ SHUFFLE_KEYWORD
      · rw [if_pos h2] at h
        simp [Except.isOk, Except.toBool] at h
      · push_neg at h2
        rw [List.prefix_iff_eq_take, ← skl_eq_kw_length]
        exact h2.symm
  · intro hpre
    obtain ⟨t, rfl⟩ := hpre
    rw [parse_shuffle_message_keyword_append]
    rfl

/-! ## The claims about the parser -/

/-- C6 counterexample: the parser does not recognize two command forms, a
long and a short one; any such pair of prefixes is contradictory with the
observed accept-set, which is exactly the messages starting with the single
keyword. -/
theorem recognizes_two_forms_cex : ¬ RecognizesTwoPrefixes := by
  rintro ⟨long, short, hlt, hiff, ⟨m1, hm1ok, hm1⟩, ⟨m2, hm2ok, hm2⟩⟩
  have hshort_ok : (parse_shuffle_message short).isOk = true :=
    (hiff short).mpr (Or.inr (List.prefix_refl short))
  have h8s : 8 ≤ short.length := by
    have hl := ((parse_ok_iff short).mp hshort_ok).length_le
    rw [kw_length] at hl
    exact hl
  have hKWok : (parse_shuffle_message SHUFFLE_KEYWORD).isOk = true :=
    (parse_ok_iff _).mpr (List.prefix_refl _)
  rcases (hiff SHUFFLE_KEYWORD).mp hKWok with hcase | hcase
  · have hll := hcase.length_le
    rw [kw_length] at hll
    omega
  · have hsl := hcase.length_le
    rw [kw_length] at hsl
    have hse : short = SHUFFLE_KEYWORD := hcase.eq_of_length (by rw [kw_length]; omega)
    subst hse
    exact hm2 ((parse_ok_iff m2).mp hm2ok)

/-- C6 (amended): the extractor recognizes exactly one literal command
keyword, `!shuffle`: a message starting with it parses to the list of scanned
mentions, and any other message is rejected with `MessageTooShort` or
`NotShuffleMessage`, never a participant list. -/
theorem parse_shuffle_message_one_keyword (m : List Char) :
    (SHUFFLE_KEYWORD <+: m ∧
      parse_shuffle_message m = .ok (scanMentions (m.drop SHUFFLE_KEYWORD_LENGTH))) ∨
    (¬ SHUFFLE_KEYWORD <+: m ∧
      (parse_shuffle_message m = .error .MessageTooShort ∨
       parse_shuffle_message m = .error .NotShuffleMessage)) := by
  by_cases hpre : SHUFFLE_KEYWORD <+: m
  · left
    refine ⟨hpre, ?_⟩
    obtain ⟨t, rfl⟩ := hpre
    rw [parse_shuffle_message_keyword_append, skl_eq_kw_length, List.drop_left]
  · right
    refine ⟨hpre, ?_⟩
    unfold parse_shuffle_message
    by_cases h1 : byteLen m < SHUFFLE_KEYWORD_LENGTH
    · rw [if_pos h1]
      exact Or.inl rfl
    · rw [if_neg h1]
      by_cases h2 : m.take SHUFFLE_KEYWORD_LENGTH ≠ SHUFFLE_KEYWORD
      · rw [if_pos h2]
        exact Or.inr rfl
      · exfalso
        push_neg at h2
        apply hpre
        rw [List.prefix_iff_eq_take, ← skl_eq_kw_length]
        exact h2.symm

/-! ## The claims about notification and orchestration -/

/-- C7 counterexample: with every DM channel opening succeeding but delivery
to participant 1 and 2 failing, the loop does not stop at the first failed
delivery: participant 3 is still sent their role DM afterwards, and both
failures are reported to the requesting conversation, not only the first. -/
theorem notify_players_fail_fast_cex :
    (fun p : UserId => decide (p = 3)) 1 = false ∧
    notify_players (fun _ => true) (fun p => decide (p = 3)) (fun _ => true) 1
      [(1,2),(2,3),(3,1)]
      = ⟨[(3,1)], [.sendDmFailed 1, .sendDmFailed 2]⟩ := by
  decide

/-- C7 (amended): the notification loop stops early only when opening the DM
channel for a participant fails — exactly the participants before the first
such failure are processed, their failed deliveries and failed host notices
are each reported (so several failures can be reported and later participants
are still sent messages), and the one channel-opening failure, if any, is
reported last. -/
theorem notify_players_spec (chanOk sendOk hostOk : UserId → Bool) (host : UserId)
    (pairs : List (UserId × UserId)) :
    notify_players chanOk sendOk hostOk host pairs =
      ⟨(pairs.takeWhile (fun pr => chanOk pr.1)).filter (fun pr => sendOk pr.1),
        ((pairs.takeWhile (fun pr => chanOk pr.1)).flatMap
          (fun pr =>
            (if sendOk pr.1 then [] else [Report.sendDmFailed pr.1]) ++
            (if pr.1 = host ∧ hostOk pr.1 = false then [Report.hostDmFailed pr.1] else []))) ++
        (match pairs.dropWhile (fun pr => chanOk pr.1) with
          | [] => []
          | pr :: _ => [Report.createDmFailed pr.1])⟩ := by
  induction pairs with
  | nil => rfl
  | cons pr rest ih =>
    obtain ⟨player, avatar⟩ := pr
    by_cases hch : chanOk player = true
    · simp only [notify_players, hch, if_true, List.takeWhile_cons, List.dropWhile_cons,
        List.filter_cons, List.flatMap_cons, ih]
      by_cases hs : sendOk player = true <;>
        simp [hs, List.append_assoc]
    · have hch' : chanOk (player, avatar).1 = false := by
        simpa using hch
      simp only [notify_players, List.takeWhile_cons, List.dropWhile_cons]
      rw [if_neg (by simpa using hch), if_neg (by simp [hch']), if_neg (by simp [hch'])]
      rfl

/-- C8: when the shuffle engine fails, `guild_message` reports exactly that
error to the requesting conversation, sends no DMs, and returns the registry
unchanged. -/
theorem guild_message_shuffle_error (orders : List (List UserId))
    (chanOk sendOk hostOk : UserId → Bool) (content : List Char)
    (mentions : List (UserId × Bool)) (channel : ChannelId) (gs : GamesMap)
    (e : ShuffleError)
    (hparse : (parse_shuffle_message content).isOk = true)
    (hlen : ¬ ((mentions.filter (fun u => !u.2)).map Prod.fst).length < 3)
    (hsh : shuffle_people orders ((mentions.filter (fun u => !u.2)).map Prod.fst)
        (avoidOf (get_game_by_channel_id gs channel)) = .error e) :
    guild_message orders chanOk sendOk hostOk content mentions channel gs
      = some ⟨gs, [.shuffleError e], []⟩ := by
  unfold guild_message
  cases hp : parse_shuffle_message content with
  | error err =>
    rw [hp] at hparse
    simp [Except.isOk, Except.toBool] at hparse
  | ok v =>
    dsimp only
    rw [if_neg hlen, hsh]

/-- C8 witness: a well-formed command whose mention list contains a duplicate;
the engine's `DuplicatesDetected` is surfaced and the registry stays empty. -/
theorem guild_message_shuffle_error_witness :
    guild_message [] (fun _ => true) (fun _ => true) (fun _ => true)
      SHUFFLE_KEYWORD [(1, false), (1, false), (2, false)] 5 []
      = some ⟨[], [.shuffleError .DuplicatesDetected], []⟩ :=
  guild_message_shuffle_error [] (fun _ => true) (fun _ => true) (fun _ => true)
    SHUFFLE_KEYWORD [(1, false), (1, false), (2, false)] 5 [] .DuplicatesDetected
    ((parse_ok_iff _).mpr (List.prefix_refl _)) (by decide) (by decide)

/-- C10: handling a private message never modifies the game registry — the
handler only looks the game up by the author and relays text. -/
theorem direct_message_reads_only (relayOk authorBot : Bool) (author : UserId)
    (content : List Char) (games : GamesMap) :
    (direct_message relayOk authorBot author content games).1 = games := by
  unfold direct_message
  cases authorBot with
  | true => rfl
  | false =>
    cases hg : get_game games author with
    | none => simp [hg]
    | some g => cases relayOk <;> simp [hg]

end AmongUsShuffler
